import Mathlib

/-!
Verification of the bcrypt-pbkdf core in `Sources/CCitadelBcrypt/bcrypt-kdf.c`
(functions `bcrypt_hash` and `citadel_bcrypt_pbkdf`).

Shallow embedding conventions:
* C byte buffers become `List Nat` with entries below 256; machine words are
  `Nat` reduced with explicit `% 2 ^ 32` where the C code relies on `uint32_t`
  truncation.
* The SHA-512 backend is a function pointer in the C code
  (`citadel_crypto_hash_sha512`, installed by `citadel_set_crypto_hash_sha512`);
  it is modelled as an explicit parameter `H : List Nat → List Nat`.
* The Blowfish core (`blf.c`, declared in `blf.h`) is not part of the sources
  being verified, so the eight 32-bit cipher words produced by the key-schedule
  and encryption steps of `bcrypt_hash` are abstracted as a parameter
  `blfWords`; everything `bcrypt-kdf.c` itself does with those words (the
  serialization, XOR accumulation, interleaved output assembly, validation and
  error fallback) is embedded faithfully.
* `calloc` success and the secure-random error fallback (`arc4random_buf` /
  `getentropy`) are modelled as parameters `allocOk : Bool` and
  `rng : Nat → List Nat` (the injected source of `n` random bytes).
-/

namespace Citadel

def SHA512_DIGEST_LENGTH : Nat := 64

def BCRYPT_WORDS : Nat := 8

def BCRYPT_HASHSIZE : Nat := BCRYPT_WORDS * 4

/-- The `MINIMUM(a,b)` macro from bcrypt-kdf.c line 18. -/
def MINIMUM (a b : Nat) : Nat := if a < b then a else b

/-- Byte `idx` of the copy-out step of `bcrypt_hash` (bcrypt-kdf.c lines 74-79):
`out[4*i+0] = cdata[i] & 0xff`, `out[4*i+1] = (cdata[i] >> 8) & 0xff`,
`out[4*i+2] = (cdata[i] >> 16) & 0xff`, `out[4*i+3] = (cdata[i] >> 24) & 0xff`,
with the C shift-and-mask expressions rendered on `Nat` as division and
remainder. -/
def bcryptOutByte (cdata : Nat → Nat) (idx : Nat) : Nat :=
  match idx % 4 with
  | 0 => cdata (idx / 4) % 256
  | 1 => cdata (idx / 4) / 2 ^ 8 % 256
  | 2 => cdata (idx / 4) / 2 ^ 16 % 256
  | _ => cdata (idx / 4) / 2 ^ 24 % 256

/-- Modelled from the spec: the BlockMixer (`blf.c`, the Blowfish-derived
cipher core invoked via `citadel_Blowfish_initstate`, `expandstate`,
`expand0state`, `stream2word` and `citadel_blf_enc`) is not among the sources;
only its contract matters here: from the pre-hashed password and pre-hashed
salt it deterministically yields the eight final 32-bit words `cdata`.  That
map is abstracted as the parameter `blfWords`; the `% 2 ^ 32` records that the
C words are `uint32_t`.  The serialization of the words to the 32 output bytes
is the faithful embedding of bcrypt-kdf.c lines 74-79. -/
def bcrypt_hash (blfWords : List Nat → List Nat → Nat → Nat)
    (sha2pass sha2salt : List Nat) : List Nat :=
  (List.range BCRYPT_HASHSIZE).map
    (bcryptOutByte (fun i => blfWords sha2pass sha2salt i % 2 ^ 32))

/-- Big-endian serialization of the 32-bit block counter, as written into
`countsalt[saltlen..saltlen+3]` (bcrypt-kdf.c lines 118-121). -/
def be32 (c : Nat) : List Nat :=
  [c / 2 ^ 24 % 256, c / 2 ^ 16 % 256, c / 2 ^ 8 % 256, c % 256]

/-- Contents of `tmpout` after round `i` (0-based) of the round loop for block
counter `count`: round 0 hashes `countsalt = salt ‖ be32 count` (lines
124-126); round `i+1` hashes the previous `tmpout` (lines 131-132). -/
def tmpoutAt (H : List Nat → List Nat) (blfWords : List Nat → List Nat → Nat → Nat)
    (sha2pass salt : List Nat) (count : Nat) : Nat → List Nat
  | 0 => bcrypt_hash blfWords sha2pass (H (salt ++ be32 count))
  | i + 1 => bcrypt_hash blfWords sha2pass (H (tmpoutAt H blfWords sha2pass salt count i))

/-- Bytewise XOR of two buffers, as in `out[j] ^= tmpout[j]` (line 134). -/
def xorBytes (a b : List Nat) : List Nat := List.zipWith Nat.xor a b

/-- Contents of `out` for block counter `count` after `r` rounds of the C
round loop: `out = tmpout` after round 0 (line 127), then XOR-accumulation of
each later round (lines 129-135). -/
def outBlock (H : List Nat → List Nat) (blfWords : List Nat → List Nat → Nat → Nat)
    (sha2pass salt : List Nat) (count : Nat) : Nat → List Nat
  | 0 => []
  | 1 => tmpoutAt H blfWords sha2pass salt count 0
  | r + 2 =>
    xorBytes (outBlock H blfWords sha2pass salt count (r + 1))
      (tmpoutAt H blfWords sha2pass salt count (r + 1))

/-- The inner output-assembly loop (bcrypt-kdf.c lines 141-146):
`for (i = 0; i < amt; i++) { dest = i*stride + (count-1); if (dest >= origkeylen) break; key[dest] = out[i]; }`.
`writeLoop out S countM1 K i steps` runs the loop body `steps` more times
starting at index `i`, returning the list of `(dest, value)` stores and the
final value of `i` (the number of bytes written when started at `i = 0`). -/
def writeLoop (out : Nat → Nat) (S countM1 K : Nat) :
    Nat → Nat → List (Nat × Nat) × Nat
  | i, 0 => ([], i)
  | i, steps + 1 =>
    if K ≤ i * S + countM1 then ([], i)
    else
      ((i * S + countM1, out i) :: (writeLoop out S countM1 K (i + 1) steps).1,
       (writeLoop out S countM1 K (i + 1) steps).2)

/-- Result of the outer generation loop: the chronological list of
`(dest, value)` stores into `key`, the number of outer iterations performed,
and the final value of `keylen`. -/
structure LoopOut where
  writes : List (Nat × Nat)
  iters : Nat
  remaining : Nat
deriving Repr, DecidableEq

/-- The outer generation loop (bcrypt-kdf.c lines 117-148):
`for (count = 1; keylen > 0; count++) { ...; amt = MINIMUM(amt, keylen); <inner loop>; keylen -= i; }`.
`blocks count i` is byte `i` of the XOR-accumulated `out` buffer for block
counter `count`; `S` is `stride` and `K` is `origkeylen`.  The `fuel`
argument only bounds the recursion; `K` steps are enough (proved below). -/
def outerLoop (blocks : Nat → Nat → Nat) (S K : Nat) :
    Nat → Nat → Nat → Nat → LoopOut
  | 0, _, keylen, _ => ⟨[], 0, keylen⟩
  | fuel + 1, count, keylen, amt =>
    if keylen = 0 then ⟨[], 0, 0⟩
    else
      let amt2 := MINIMUM amt keylen
      let w := writeLoop (blocks count) S (count - 1) K 0 amt2
      let rest := outerLoop blocks S K fuel (count + 1) (keylen - w.2) amt2
      ⟨w.1 ++ rest.writes, rest.iters + 1, rest.remaining⟩

/-- `stride = (keylen + sizeof(out) - 1) / sizeof(out)` (line 108). -/
def stride (keylen : Nat) : Nat := (keylen + BCRYPT_HASHSIZE - 1) / BCRYPT_HASHSIZE

/-- Initial `amt = (keylen + stride - 1) / stride` (line 109). -/
def amt0 (keylen : Nat) : Nat := (keylen + stride keylen - 1) / stride keylen

/-- The full generation loop of `citadel_bcrypt_pbkdf` on a `keylen`-byte
output, with the per-counter accumulated block bytes abstracted as `blocks`. -/
def kdfLoop (blocks : Nat → Nat → Nat) (keylen : Nat) : LoopOut :=
  outerLoop blocks (stride keylen) keylen keylen 1 keylen (amt0 keylen)

/-- Byte `i` of the accumulated `out` buffer for block counter `count`, with
`sha2pass = H pass` computed once (line 114). -/
def kdfBlocks (H : List Nat → List Nat) (blfWords : List Nat → List Nat → Nat → Nat)
    (pass salt : List Nat) (rounds : Nat) : Nat → Nat → Nat :=
  fun count i => (outBlock H blfWords (H pass) salt count rounds).getD i 0

/-- The derived key: the generation loop's stores applied in order to the
caller-supplied buffer `keyInit` (whose length is `keylen`). -/
def derivedKey (H : List Nat → List Nat) (blfWords : List Nat → List Nat → Nat → Nat)
    (pass salt keyInit : List Nat) (rounds : Nat) : List Nat :=
  (kdfLoop (kdfBlocks H blfWords pass salt rounds) keyInit.length).writes.foldl
    (fun k w => k.set w.1 w.2) keyInit

/-- `citadel_bcrypt_pbkdf` (bcrypt-kdf.c lines 87-166).  The caller-supplied
`key` buffer of `keylen` bytes is `keyInit`; the result is the C return value
paired with the buffer contents at return.  The validation mirrors lines
100-107: `rounds < 1`, then `passlen == 0 || saltlen == 0 || keylen == 0 ||
keylen > sizeof(out)*sizeof(out) || saltlen > 1<<20`, then the `calloc` of the
countsalt buffer (`allocOk`).  On any `goto bad` the buffer is filled from the
platform random source (`arc4random_buf`/`getentropy`), modelled as `rng`
applied to the byte count, and `-1` is returned. -/
def citadel_bcrypt_pbkdf (H : List Nat → List Nat)
    (blfWords : List Nat → List Nat → Nat → Nat)
    (rng : Nat → List Nat) (allocOk : Bool)
    (pass salt keyInit : List Nat) (rounds : Nat) : Int × List Nat :=
  if rounds < 1 then (-1, rng keyInit.length)
  else if pass.length = 0 ∨ salt.length = 0 ∨ keyInit.length = 0 ∨
      BCRYPT_HASHSIZE * BCRYPT_HASHSIZE < keyInit.length ∨ 2 ^ 20 < salt.length then
    (-1, rng keyInit.length)
  else if allocOk = false then (-1, rng keyInit.length)
  else (0, derivedKey H blfWords pass salt keyInit rounds)

/-- Terminal contents of the sensitive local buffers of
`citadel_bcrypt_pbkdf`, relative to their contents at entry `g` (the stack
arrays `out`, `tmpout`, `sha2pass`, `sha2salt` are uninitialized on entry;
the `countsalt` heap buffer does not exist yet, recorded as `none`).
On every `goto bad` path (bcrypt-kdf.c lines 100-107 and 158-165) the
function returns without writing any of these buffers — nothing is zeroed —
and `countsalt` is never allocated.
On the success path (lines 150-156): `explicit_bzero(out, ...)` and
`explicit_bzero(tmpout, ...)` leave those two buffers all-zero; the
`countsalt` buffer is released with plain `free` — the `freezero` call of
line 151 is commented out in the source — so at release it still holds the
salt followed by the big-endian bytes of the last counter value used (the
loop writes `be32 count` into its tail each iteration, so the last value is
the number of outer iterations); `sha2pass` is never overwritten after line
114 and still holds the password digest; `sha2salt` holds the last salt
digest: for `rounds = 1` the hash of the last iteration's countsalt (line
124), otherwise the hash of the last iteration's `tmpout` after round
`rounds - 2` (line 131). -/
structure FinalBuffers where
  countsalt : Option (List Nat)
  outBuf : List Nat
  tmpout : List Nat
  sha2pass : List Nat
  sha2salt : List Nat
deriving Repr, DecidableEq

def pbkdfFinalBuffers (H : List Nat → List Nat)
    (blfWords : List Nat → List Nat → Nat → Nat) (allocOk : Bool)
    (pass salt keyInit : List Nat) (rounds : Nat) (g : FinalBuffers) :
    FinalBuffers :=
  if rounds < 1 then { g with countsalt := none }
  else if pass.length = 0 ∨ salt.length = 0 ∨ keyInit.length = 0 ∨
      BCRYPT_HASHSIZE * BCRYPT_HASHSIZE < keyInit.length ∨ 2 ^ 20 < salt.length then
    { g with countsalt := none }
  else if allocOk = false then { g with countsalt := none }
  else
    { countsalt :=
        some (salt ++
          be32 ((kdfLoop (kdfBlocks H blfWords pass salt rounds) keyInit.length).iters))
      outBuf := List.replicate BCRYPT_HASHSIZE 0
      tmpout := List.replicate BCRYPT_HASHSIZE 0
      sha2pass := H pass
      sha2salt :=
        if rounds ≤ 1 then
          H (salt ++
            be32 ((kdfLoop (kdfBlocks H blfWords pass salt rounds) keyInit.length).iters))
        else
          H (tmpoutAt H blfWords (H pass) salt
            ((kdfLoop (kdfBlocks H blfWords pass salt rounds) keyInit.length).iters)
            (rounds - 2)) }

/-- The inputs `citadel_bcrypt_pbkdf` accepts (negation of the checks at
lines 101-105). -/
def validInput (pass salt keyInit : List Nat) (rounds : Nat) : Prop :=
  1 ≤ rounds ∧ 0 < pass.length ∧ 0 < salt.length ∧ 0 < keyInit.length ∧
    keyInit.length ≤ 1024 ∧ salt.length ≤ 2 ^ 20

instance (pass salt keyInit : List Nat) (rounds : Nat) :
    Decidable (validInput pass salt keyInit rounds) := by
  unfold validInput; infer_instance


/-! ### Arithmetic helpers for the interleaving index calculus -/

theorem lt_ceilDiv_iff (S n i : Nat) (hS : 0 < S) :
    i < (n + (S - 1)) / S ↔ i * S < n := by
  rw [Nat.lt_iff_add_one_le, Nat.le_div_iff_mul_le hS]
  have h : (i + 1) * S = i * S + S := by ring
  rw [h]
  generalize i * S = m
  omega

theorem breakBound (S countM1 K : Nat) (hS : 0 < S) (i : Nat) :
    i * S + countM1 < K ↔ i < (K - countM1 + (S - 1)) / S := by
  rw [lt_ceilDiv_iff S (K - countM1) i hS]
  generalize i * S = m
  omega

theorem mul_add_mod_eq (S t i : Nat) (ht : t < S) : (i * S + t) % S = t := by
  rw [Nat.add_comm, Nat.add_mul_mod_self_right t i S]
  exact Nat.mod_eq_of_lt ht

theorem mul_add_div_eq (S t i : Nat) (ht : t < S) : (i * S + t) / S = i := by
  rw [Nat.add_comm, Nat.add_mul_div_right t i (by omega : 0 < S), Nat.div_eq_of_lt ht]
  omega

theorem euclid_pair (S t i d : Nat) (ht : t < S) :
    i * S + t = d ↔ d % S = t ∧ d / S = i := by
  constructor
  · rintro rfl
    exact ⟨mul_add_mod_eq S t i ht, mul_add_div_eq S t i ht⟩
  · rintro ⟨h1, h2⟩
    have h3 := Nat.div_add_mod d S
    rw [h1, h2] at h3
    rw [Nat.mul_comm]
    exact h3

theorem MINIMUM_eq_min (a b : Nat) : MINIMUM a b = min a b := by
  unfold MINIMUM
  split <;> omega

/-! ### Characterization of the inner write loop -/

/-- The stores the inner loop performs from index `i` over `m` in-bounds
steps: `(i*S + t, out i), ((i+1)*S + t, out (i+1)), ...`. -/
def writeSeq (out : Nat → Nat) (S t : Nat) : Nat → Nat → List (Nat × Nat)
  | _, 0 => []
  | i, m + 1 => (i * S + t, out i) :: writeSeq out S t (i + 1) m

theorem writeLoop_spec (out : Nat → Nat) (S t K B : Nat)
    (hB : ∀ j, j * S + t < K ↔ j < B) :
    ∀ steps i, writeLoop out S t K i steps =
      (writeSeq out S t i (min (i + steps) (max i B) - i), min (i + steps) (max i B)) := by
  intro steps
  induction steps with
  | zero =>
    intro i
    have h : min (i + 0) (max i B) = i := by omega
    rw [h]
    simp [writeLoop, writeSeq]
  | succ n ih =>
    intro i
    by_cases h : K ≤ i * S + t
    · have hi : B ≤ i := by
        have := hB i
        omega
      have h2 : min (i + (n + 1)) (max i B) = i := by omega
      rw [h2]
      simp only [writeLoop, if_pos h]
      simp [writeSeq]
    · have hi : i < B := by
        have := hB i
        omega
      have hlen : min (i + (n + 1)) (max i B) - i
          = (min (i + 1 + n) (max (i + 1) B) - (i + 1)) + 1 := by omega
      have hmin : min (i + (n + 1)) (max i B) = min (i + 1 + n) (max (i + 1) B) := by omega
      simp only [writeLoop, if_neg h]
      rw [ih (i + 1), hlen, hmin]
      simp [writeSeq]

/-! ### Residue-class counting -/

/-- Number of key indices in residue class `c - 1` modulo `S`:
`#{d < K | d % S = c - 1}`. -/
def Ncard (S K c : Nat) : Nat :=
  ((Finset.range K).filter (fun d => d % S = c - 1)).card

/-- The bound at which the inner loop for counter `c` breaks out:
`ceil((K - (c-1)) / S)`. -/
def NB (S K c : Nat) : Nat := (K - (c - 1) + (S - 1)) / S

/-- Number of key indices not yet written when the outer loop reaches
counter `c`: `#{d < K | d % S ≥ c - 1}`. -/
def Rcount (S K c : Nat) : Nat :=
  ((Finset.range K).filter (fun d => c - 1 ≤ d % S)).card

theorem Rcount_one (S K : Nat) : Rcount S K 1 = K := by
  unfold Rcount
  simp

theorem Rcount_top (S K : Nat) (hS : 0 < S) : Rcount S K (S + 1) = 0 := by
  unfold Rcount
  rw [Finset.card_eq_zero, Finset.filter_eq_empty_iff]
  intro x _
  have := Nat.mod_lt x hS
  omega

theorem Rcount_step (S K c : Nat) (hc : 1 ≤ c) :
    Rcount S K c = Ncard S K c + Rcount S K (c + 1) := by
  unfold Rcount Ncard
  have h1 : (Finset.range K).filter (fun d => c - 1 ≤ d % S)
      = ((Finset.range K).filter (fun d => d % S = c - 1)) ∪
        ((Finset.range K).filter (fun d => (c + 1) - 1 ≤ d % S)) := by
    rw [← Finset.filter_or]
    ext d
    simp only [Finset.mem_filter, Finset.mem_range]
    constructor
    · rintro ⟨hd, hmod⟩
      exact ⟨hd, by omega⟩
    · rintro ⟨hd, hmod⟩
      exact ⟨hd, by omega⟩
  have h2 : Disjoint ((Finset.range K).filter (fun d => d % S = c - 1))
      ((Finset.range K).filter (fun d => (c + 1) - 1 ≤ d % S)) := by
    rw [Finset.disjoint_left]
    intro d hd1 hd2
    simp only [Finset.mem_filter, Finset.mem_range] at hd1 hd2
    omega
  rw [h1, Finset.card_union_of_disjoint h2]

theorem Ncard_eq_NB (S K c : Nat) (hS : 0 < S) (hc : 1 ≤ c) (hcS : c ≤ S) :
    Ncard S K c = NB S K c := by
  unfold Ncard NB
  have himg : (Finset.range K).filter (fun d => d % S = c - 1)
      = (Finset.range ((K - (c - 1) + (S - 1)) / S)).image (fun i => i * S + (c - 1)) := by
    ext d
    simp only [Finset.mem_filter, Finset.mem_image, Finset.mem_range]
    constructor
    · rintro ⟨hdK, hmod⟩
      have h3 : d = d / S * S + (c - 1) := by
        conv_lhs => rw [← Nat.div_add_mod d S]
        rw [hmod, Nat.mul_comm]
      refine ⟨d / S, ?_, h3.symm⟩
      rw [← breakBound S (c - 1) K hS (d / S), ← h3]
      exact hdK
    · rintro ⟨i, hi, rfl⟩
      refine ⟨(breakBound S (c - 1) K hS i).mpr hi, ?_⟩
      exact mul_add_mod_eq S (c - 1) i (by omega)
  have hinj : Function.Injective (fun i : Nat => i * S + (c - 1)) := by
    intro a b hab
    simp only [] at hab
    have h4 : a * S = b * S := by omega
    exact Nat.eq_of_mul_eq_mul_right hS h4
  rw [himg, Finset.card_image_of_injective _ hinj, Finset.card_range]

theorem NB_le_amt (S K c : Nat) (hc : 1 ≤ c) :
    NB S K c ≤ (K + (S - 1)) / S := by
  unfold NB
  exact Nat.div_le_div_right (by omega)

theorem Ncard_le_Rcount (S K c : Nat) : Ncard S K c ≤ Rcount S K c := by
  unfold Ncard Rcount
  apply Finset.card_le_card
  intro d hd
  simp only [Finset.mem_filter, Finset.mem_range] at hd ⊢
  omega

theorem Rcount_pos (S K c : Nat) (hS : 0 < S) (hSK : S ≤ K) (hc : 1 ≤ c) (hcS : c ≤ S) :
    0 < Rcount S K c := by
  unfold Rcount
  apply Finset.card_pos.mpr
  refine ⟨c - 1, ?_⟩
  simp only [Finset.mem_filter, Finset.mem_range]
  have h1 : (c - 1) % S = c - 1 := Nat.mod_eq_of_lt (by omega)
  omega

/-! ### The outer loop runs exactly `stride` iterations, one residue class each -/

/-- Stores of outer iteration `c`: the inner loop writes the `NB S K c`
indices of residue class `c - 1`. -/
def classWrites (blocks : Nat → Nat → Nat) (S K c : Nat) : List (Nat × Nat) :=
  writeSeq (blocks c) S (c - 1) 0 (NB S K c)

/-- Stores of outer iterations `c, c+1, ..., c+n-1` in chronological order. -/
def writesFrom (blocks : Nat → Nat → Nat) (S K : Nat) : Nat → Nat → List (Nat × Nat)
  | _, 0 => []
  | c, n + 1 => classWrites blocks S K c ++ writesFrom blocks S K (c + 1) n

theorem outerLoop_run (blocks : Nat → Nat → Nat) (S K A : Nat)
    (hS : 0 < S) (hSK : S ≤ K) (hA : A = (K + (S - 1)) / S) :
    ∀ n c amt fuel, c + n = S + 1 → 1 ≤ c → n ≤ fuel →
      min amt (Rcount S K c) = min A (Rcount S K c) →
      outerLoop blocks S K fuel c (Rcount S K c) amt =
        ⟨writesFrom blocks S K c n, n, 0⟩ := by
  intro n
  induction n with
  | zero =>
    intro c amt fuel hcn hc _ _
    have hc2 : c = S + 1 := by omega
    subst hc2
    rw [Rcount_top S K hS]
    cases fuel with
    | zero => simp [outerLoop, writesFrom]
    | succ f => simp [outerLoop, writesFrom]
  | succ n ih =>
    intro c amt fuel hcn hc hfuel hamt
    obtain ⟨f, rfl⟩ : ∃ f, fuel = f + 1 := ⟨fuel - 1, by omega⟩
    have hcS : c ≤ S := by omega
    have hRpos : 0 < Rcount S K c := Rcount_pos S K c hS hSK hc hcS
    have hne : ¬ Rcount S K c = 0 := by omega
    have hB : ∀ j, j * S + (c - 1) < K ↔ j < NB S K c := fun j =>
      breakBound S (c - 1) K hS j
    have hwl := writeLoop_spec (blocks c) S (c - 1) K (NB S K c) hB
      (MINIMUM amt (Rcount S K c)) 0
    have hstep := Rcount_step S K c hc
    have hNc := Ncard_eq_NB S K c hS hc hcS
    have hNBle : NB S K c ≤ MINIMUM amt (Rcount S K c) := by
      rw [MINIMUM_eq_min, hamt]
      have h1 : NB S K c ≤ A := by
        rw [hA]
        exact NB_le_amt S K c hc
      have h2 := Ncard_le_Rcount S K c
      omega
    have hmin : min (0 + MINIMUM amt (Rcount S K c)) (max 0 (NB S K c)) = NB S K c := by
      omega
    rw [hmin] at hwl
    rw [Nat.sub_zero] at hwl
    have hwl1 : (writeLoop (blocks c) S (c - 1) K 0 (MINIMUM amt (Rcount S K c))).1
        = writeSeq (blocks c) S (c - 1) 0 (NB S K c) := by rw [hwl]
    have hwl2 : (writeLoop (blocks c) S (c - 1) K 0 (MINIMUM amt (Rcount S K c))).2
        = NB S K c := by rw [hwl]
    have hkey : Rcount S K c - NB S K c = Rcount S K (c + 1) := by omega
    have hamt2 : min (MINIMUM amt (Rcount S K c)) (Rcount S K (c + 1))
        = min A (Rcount S K (c + 1)) := by
      rw [MINIMUM_eq_min, hamt]
      omega
    have hrec := ih (c + 1) (MINIMUM amt (Rcount S K c)) f (by omega) (by omega)
      (by omega) hamt2
    simp only [outerLoop, if_neg hne]
    rw [hwl1, hwl2, hkey, hrec]
    simp [writesFrom, classWrites]

theorem stride_pos (K : Nat) (hK : 1 ≤ K) : 0 < stride K := by
  have h32 : BCRYPT_HASHSIZE = 32 := rfl
  unfold stride
  rw [h32]
  omega

theorem stride_le (K : Nat) (hK : 1 ≤ K) : stride K ≤ K := by
  have h32 : BCRYPT_HASHSIZE = 32 := rfl
  unfold stride
  rw [h32]
  omega

theorem kdfLoop_run (blocks : Nat → Nat → Nat) (K : Nat) (hK : 1 ≤ K) :
    kdfLoop blocks K = ⟨writesFrom blocks (stride K) K 1 (stride K), stride K, 0⟩ := by
  have hS := stride_pos K hK
  have hSK := stride_le K hK
  have hA : amt0 K = (K + (stride K - 1)) / stride K := by
    unfold amt0
    congr 1
    omega
  have h := outerLoop_run blocks (stride K) K (amt0 K) hS hSK hA
    (stride K) 1 (amt0 K) K (by omega) (by omega) hSK rfl
  rw [Rcount_one (stride K) K] at h
  unfold kdfLoop
  exact h

/-! ### Each key index is stored exactly once -/

/-- Number of occurrences of `d` in a list (used to state "written exactly
once"). -/
def countOcc (d : Nat) : List Nat → Nat
  | [] => 0
  | x :: xs => (if x = d then 1 else 0) + countOcc d xs

theorem countOcc_append (d : Nat) :
    ∀ a b : List Nat, countOcc d (a ++ b) = countOcc d a + countOcc d b := by
  intro a
  induction a with
  | nil => intro b; simp [countOcc]
  | cons x xs ih =>
    intro b
    simp only [List.cons_append, countOcc, List.append_eq]
    rw [ih b]
    omega

theorem writeSeq_countOcc (out : Nat → Nat) (S t : Nat) (hS : 0 < S) (ht : t < S) :
    ∀ m i d, countOcc d ((writeSeq out S t i m).map Prod.fst)
      = if d % S = t ∧ i ≤ d / S ∧ d / S < i + m then 1 else 0 := by
  intro m
  induction m with
  | zero =>
    intro i d
    have h : ¬ (d % S = t ∧ i ≤ d / S ∧ d / S < i) := by omega
    simp [writeSeq, countOcc, h]
  | succ m ih =>
    intro i d
    simp only [writeSeq, List.map_cons, countOcc]
    rw [ih (i + 1) d]
    have he := euclid_pair S t i d ht
    split_ifs <;> omega

theorem writesFrom_countOcc (blocks : Nat → Nat → Nat) (S K : Nat) (hS : 0 < S) :
    ∀ n c d, c + n = S + 1 → 1 ≤ c →
      countOcc d ((writesFrom blocks S K c n).map Prod.fst)
        = if d < K ∧ c - 1 ≤ d % S then 1 else 0 := by
  intro n
  induction n with
  | zero =>
    intro c d hcn hc
    have hc2 : c = S + 1 := by omega
    subst hc2
    have hmod : d % S < S := Nat.mod_lt d hS
    have h : ¬ (d < K ∧ S ≤ d % S) := by omega
    simp [writesFrom, countOcc, h]
  | succ n ih =>
    intro c d hcn hc
    simp only [writesFrom, classWrites, List.map_append]
    rw [countOcc_append, ih (c + 1) d (by omega) (by omega)]
    rw [writeSeq_countOcc (blocks c) S (c - 1) hS (by omega) (NB S K c) 0 d]
    have hmod : d % S < S := Nat.mod_lt d hS
    have hiff : d % S = c - 1 → (d / S < NB S K c ↔ d < K) := by
      intro hm
      have hb := breakBound S (c - 1) K hS (d / S)
      have h3 : d / S * S + (c - 1) = d := by
        conv_rhs => rw [← Nat.div_add_mod d S]
        rw [hm, Nat.mul_comm]
      constructor
      · intro h4
        have h5 := hb.mpr h4
        rwa [h3] at h5
      · intro h4
        apply hb.mp
        rwa [h3]
    simp only [Nat.add_sub_cancel]
    by_cases hm : d % S = c - 1
    · by_cases hdK : d < K
      · have h6 : d / S < NB S K c := (hiff hm).mpr hdK
        have c1 : d % S = c - 1 ∧ 0 ≤ d / S ∧ d / S < 0 + NB S K c :=
          ⟨hm, Nat.zero_le _, by simpa using h6⟩
        have c2 : ¬ (d < K ∧ c ≤ d % S) := by omega
        have c3 : d < K ∧ c - 1 ≤ d % S := ⟨hdK, by omega⟩
        rw [if_pos c1, if_neg c2, if_pos c3]
      · have h6 : ¬ d / S < NB S K c := fun hh => hdK ((hiff hm).mp hh)
        have c1 : ¬ (d % S = c - 1 ∧ 0 ≤ d / S ∧ d / S < 0 + NB S K c) :=
          fun h => h6 (by simpa using h.2.2)
        have c2 : ¬ (d < K ∧ c ≤ d % S) := by omega
        have c3 : ¬ (d < K ∧ c - 1 ≤ d % S) := by omega
        rw [if_neg c1, if_neg c2, if_neg c3]
    · have c1 : ¬ (d % S = c - 1 ∧ 0 ≤ d / S ∧ d / S < 0 + NB S K c) :=
        fun h => hm h.1
      by_cases h7 : d < K ∧ c ≤ d % S
      · have c3 : d < K ∧ c - 1 ≤ d % S := ⟨h7.1, by omega⟩
        rw [if_neg c1, if_pos h7, if_pos c3]
      · have c3 : ¬ (d < K ∧ c - 1 ≤ d % S) := by omega
        rw [if_neg c1, if_neg h7, if_neg c3]

/-! ### Membership characterization of the stores -/

theorem writeSeq_mem (out : Nat → Nat) (S t : Nat) :
    ∀ m i p, p ∈ writeSeq out S t i m →
      ∃ j, i ≤ j ∧ j < i + m ∧ p = (j * S + t, out j) := by
  intro m
  induction m with
  | zero => intro i p hp; simp [writeSeq] at hp
  | succ m ih =>
    intro i p hp
    simp only [writeSeq, List.mem_cons] at hp
    rcases hp with hp | hp
    · exact ⟨i, by omega, by omega, hp⟩
    · obtain ⟨j, h1, h2, h3⟩ := ih (i + 1) p hp
      exact ⟨j, by omega, by omega, h3⟩

theorem writeSeq_mem_of (out : Nat → Nat) (S t : Nat) :
    ∀ m i j, i ≤ j → j < i + m → (j * S + t, out j) ∈ writeSeq out S t i m := by
  intro m
  induction m with
  | zero =>
    intro i j h1 h2
    exact absurd h2 (by omega)
  | succ m ih =>
    intro i j h1 h2
    simp only [writeSeq, List.mem_cons]
    by_cases hj : j = i
    · subst hj
      exact Or.inl rfl
    · exact Or.inr (ih (i + 1) j (by omega) (by omega))

theorem writesFrom_mem (blocks : Nat → Nat → Nat) (S K : Nat) :
    ∀ n c p, p ∈ writesFrom blocks S K c n →
      ∃ c2 j, c ≤ c2 ∧ c2 < c + n ∧ j < NB S K c2 ∧
        p = (j * S + (c2 - 1), blocks c2 j) := by
  intro n
  induction n with
  | zero => intro c p hp; simp [writesFrom] at hp
  | succ n ih =>
    intro c p hp
    simp only [writesFrom, classWrites, List.mem_append] at hp
    rcases hp with hp | hp
    · obtain ⟨j, h1, h2, h3⟩ := writeSeq_mem (blocks c) S (c - 1) (NB S K c) 0 p hp
      exact ⟨c, j, by omega, by omega, by omega, h3⟩
    · obtain ⟨c2, j, h1, h2, h3, h4⟩ := ih (c + 1) p hp
      exact ⟨c2, j, by omega, by omega, h3, h4⟩

theorem writesFrom_mem_of (blocks : Nat → Nat → Nat) (S K : Nat) :
    ∀ n c c2 j, c ≤ c2 → c2 < c + n → j < NB S K c2 →
      (j * S + (c2 - 1), blocks c2 j) ∈ writesFrom blocks S K c n := by
  intro n
  induction n with
  | zero =>
    intro c c2 j h1 h2 _
    exact absurd h2 (by omega)
  | succ n ih =>
    intro c c2 j h1 h2 h3
    simp only [writesFrom, classWrites, List.mem_append]
    by_cases hc : c2 = c
    · subst hc
      exact Or.inl (writeSeq_mem_of (blocks c2) S (c2 - 1) (NB S K c2) 0 j (by omega)
        (by omega))
    · exact Or.inr (ih (c + 1) c2 j (by omega) (by omega) h3)

/-! ### Applying the stores to the key buffer -/

theorem length_foldl_set :
    ∀ (ws : List (Nat × Nat)) (k : List Nat),
      (ws.foldl (fun k w => k.set w.1 w.2) k).length = k.length := by
  intro ws
  induction ws with
  | nil => intro k; rfl
  | cons a tl ih =>
    intro k
    simp only [List.foldl_cons]
    rw [ih, List.length_set]

theorem getD_set_self (l : List Nat) :
    ∀ i v, i < l.length → (l.set i v).getD i 0 = v := by
  induction l with
  | nil =>
    intro i v h
    simp at h
  | cons x xs ih =>
    intro i v h
    cases i with
    | zero => rfl
    | succ n =>
      simp only [List.set]
      rw [List.getD_cons_succ]
      exact ih n v (by simpa using h)

theorem getD_set_other (l : List Nat) :
    ∀ i j v, i ≠ j → (l.set i v).getD j 0 = l.getD j 0 := by
  induction l with
  | nil => intro i j v _; rfl
  | cons x xs ih =>
    intro i j v h
    cases i with
    | zero =>
      cases j with
      | zero => exact absurd rfl h
      | succ m => rfl
    | succ n =>
      cases j with
      | zero => rfl
      | succ m =>
        simp only [List.set]
        rw [List.getD_cons_succ, List.getD_cons_succ]
        exact ih n m v (by omega)

theorem getD_foldl_set_of_not_mem :
    ∀ (ws : List (Nat × Nat)) (k : List Nat) (d : Nat),
      (∀ p ∈ ws, p.1 ≠ d) →
      (ws.foldl (fun k w => k.set w.1 w.2) k).getD d 0 = k.getD d 0 := by
  intro ws
  induction ws with
  | nil => intro k d _; rfl
  | cons a tl ih =>
    intro k d h
    simp only [List.foldl_cons]
    rw [ih (k.set a.1 a.2) d (fun p hp => h p (List.mem_cons_of_mem a hp))]
    exact getD_set_other k a.1 d a.2 (h a (List.mem_cons_self a tl))

theorem getD_foldl_set (v : Nat) :
    ∀ (ws : List (Nat × Nat)) (k : List Nat) (d : Nat),
      d < k.length →
      (∃ p ∈ ws, p.1 = d) →
      (∀ p ∈ ws, p.1 = d → p.2 = v) →
      (ws.foldl (fun k w => k.set w.1 w.2) k).getD d 0 = v := by
  intro ws
  induction ws with
  | nil =>
    intro k d _ hex _
    simp at hex
  | cons a tl ih =>
    intro k d hd hex hval
    simp only [List.foldl_cons]
    by_cases htl : ∃ p ∈ tl, p.1 = d
    · exact ih (k.set a.1 a.2) d (by rw [List.length_set]; exact hd) htl
        (fun p hp hpd => hval p (List.mem_cons_of_mem a hp) hpd)
    · have ha : a.1 = d := by
        obtain ⟨p, hp, hpd⟩ := hex
        rcases List.mem_cons.mp hp with h | h
        · rw [← hpd, h]
        · exact absurd ⟨p, h, hpd⟩ htl
      have hv : a.2 = v := hval a (List.mem_cons_self a tl) ha
      rw [getD_foldl_set_of_not_mem tl (k.set a.1 a.2) d
        (fun p hp hpd => htl ⟨p, hp, hpd⟩)]
      rw [← ha, ← hv]
      exact getD_set_self k a.1 a.2 (by omega)

/-! ### Master theorem: where each key byte comes from -/

theorem kdf_getD (blocks : Nat → Nat → Nat) (K : Nat) (keyInit : List Nat) (d : Nat)
    (hK : 1 ≤ K) (hlen : keyInit.length = K) (hd : d < K) :
    ((kdfLoop blocks K).writes.foldl (fun k w => k.set w.1 w.2) keyInit).getD d 0
      = blocks (d % stride K + 1) (d / stride K) := by
  have hS := stride_pos K hK
  rw [kdfLoop_run blocks K hK]
  have hmodS : d % stride K < stride K := Nat.mod_lt d hS
  have hdec : d / stride K * stride K + d % stride K = d := by
    conv_rhs => rw [← Nat.div_add_mod d (stride K)]
    rw [Nat.mul_comm]
  have hNB : d / stride K < NB (stride K) K (d % stride K + 1) := by
    have hlt : d / stride K * stride K + d % stride K < K := by omega
    have hb := (breakBound (stride K) (d % stride K) K hS (d / stride K)).mp hlt
    unfold NB
    simpa using hb
  apply getD_foldl_set
  · omega
  · refine ⟨(d / stride K * stride K + (d % stride K + 1 - 1),
      blocks (d % stride K + 1) (d / stride K)), ?_, ?_⟩
    · exact writesFrom_mem_of blocks (stride K) K (stride K) 1 (d % stride K + 1)
        (d / stride K) (by omega) (by omega) hNB
    · simp only [Nat.add_sub_cancel]
      exact hdec
  · intro p hp hpd
    obtain ⟨c2, j, h1, h2, h3, h4⟩ := writesFrom_mem blocks (stride K) K (stride K) 1 p hp
    have ht : c2 - 1 < stride K := by omega
    have hfst : p.1 = j * stride K + (c2 - 1) := by rw [h4]
    have heq : j * stride K + (c2 - 1) = d := by rw [← hfst, hpd]
    obtain ⟨hm, hdiv⟩ := (euclid_pair (stride K) (c2 - 1) j d ht).mp heq
    have hc2 : c2 = d % stride K + 1 := by omega
    have hj : j = d / stride K := by omega
    rw [h4, hc2, hj]

/-! ### Bridging the full function to the loop machinery -/

theorem bcrypt_hash_length (blfWords : List Nat → List Nat → Nat → Nat)
    (sha2pass sha2salt : List Nat) :
    (bcrypt_hash blfWords sha2pass sha2salt).length = 32 := by
  unfold bcrypt_hash
  rw [List.length_map, List.length_range]
  rfl

theorem outBlock_length (H : List Nat → List Nat)
    (blfWords : List Nat → List Nat → Nat → Nat) (sha2pass salt : List Nat)
    (count : Nat) :
    ∀ r, 1 ≤ r → (outBlock H blfWords sha2pass salt count r).length = 32 := by
  intro r
  induction r with
  | zero => intro h; exact absurd h (by omega)
  | succ r ih =>
    intro _
    cases r with
    | zero =>
      unfold outBlock tmpoutAt
      exact bcrypt_hash_length blfWords sha2pass (H (salt ++ be32 count))
    | succ m =>
      show (xorBytes (outBlock H blfWords sha2pass salt count (m + 1))
        (tmpoutAt H blfWords sha2pass salt count (m + 1))).length = 32
      unfold xorBytes
      rw [List.length_zipWith, ih (by omega)]
      cases m with
      | zero =>
        unfold tmpoutAt
        rw [bcrypt_hash_length]
        omega
      | succ m2 =>
        unfold tmpoutAt
        rw [bcrypt_hash_length]
        omega

theorem pbkdf_valid_eq (H : List Nat → List Nat)
    (blfWords : List Nat → List Nat → Nat → Nat) (rng : Nat → List Nat)
    (pass salt keyInit : List Nat) (rounds : Nat)
    (hv : validInput pass salt keyInit rounds) :
    citadel_bcrypt_pbkdf H blfWords rng true pass salt keyInit rounds
      = (0, derivedKey H blfWords pass salt keyInit rounds) := by
  obtain ⟨h1, h2, h3, h4, h5, h6⟩ := hv
  have h1024 : BCRYPT_HASHSIZE * BCRYPT_HASHSIZE = 1024 := rfl
  unfold citadel_bcrypt_pbkdf
  rw [if_neg (by omega), if_neg (by rw [h1024]; omega), if_neg (by simp)]

theorem derivedKey_length (H : List Nat → List Nat)
    (blfWords : List Nat → List Nat → Nat → Nat)
    (pass salt keyInit : List Nat) (rounds : Nat) :
    (derivedKey H blfWords pass salt keyInit rounds).length = keyInit.length := by
  unfold derivedKey
  exact length_foldl_set _ keyInit

theorem derivedKey_getD (H : List Nat → List Nat)
    (blfWords : List Nat → List Nat → Nat → Nat)
    (pass salt keyInit : List Nat) (rounds d : Nat)
    (hK : 1 ≤ keyInit.length) (hd : d < keyInit.length) :
    (derivedKey H blfWords pass salt keyInit rounds).getD d 0
      = (outBlock H blfWords (H pass) salt (d % stride keyInit.length + 1)
          rounds).getD (d / stride keyInit.length) 0 := by
  unfold derivedKey
  exact kdf_getD (kdfBlocks H blfWords pass salt rounds) keyInit.length keyInit d hK rfl hd

/-! ### Concrete instantiations used by the witness theorems -/

/-- A concrete injected digest backend for witness instances. -/
def sampleH : List Nat → List Nat :=
  fun l => List.replicate 64 ((l.length + l.headD 0) % 256)

/-- A concrete cipher-words instantiation for witness instances. -/
def sampleBlf : List Nat → List Nat → Nat → Nat :=
  fun p s i => p.headD 0 + s.headD 0 + i + 1

/-- The all-zero digest backend, used for degenerate counterexamples. -/
def zeroH : List Nat → List Nat := fun _ => List.replicate 64 0

/-- The all-zero cipher-words instantiation, used for counterexamples. -/
def zeroBlf : List Nat → List Nat → Nat → Nat := fun _ _ _ => 0

/-- A concrete random-byte source for witness instances. -/
def sampleRng : Nat → List Nat := fun n => List.replicate n 7

/-- A second random-byte source, different from `sampleRng`. -/
def sampleRng2 : Nat → List Nat := fun n => List.replicate n 9

/-! ### The claims -/

/-- Claim C1: for every valid key length (`1 ≤ keyLength ≤ 1024`), the
generation loop of `citadel_bcrypt_pbkdf` — with `stride = ceil(keyLength/32)`,
`amt = ceil(keyLength/stride)` and per-iteration stores to
`key[i*stride + (count-1)]` — stores into each output index
`0 ≤ d < keyLength` exactly once over all outer iterations. -/
theorem C1_writes_cover_once (blocks : Nat → Nat → Nat) (K d : Nat)
    (hK : 1 ≤ K) (hK2 : K ≤ 1024) (hd : d < K) :
    countOcc d (((kdfLoop blocks K).writes).map Prod.fst) = 1 := by
  rw [kdfLoop_run blocks K hK]
  have hS := stride_pos K hK
  rw [writesFrom_countOcc blocks (stride K) K hS (stride K) 1 d (by omega) (by omega)]
  have hcond : d < K ∧ 1 - 1 ≤ d % stride K := ⟨hd, by omega⟩
  rw [if_pos hcond]

/-- Witness for C1 at `keyLength = 40`, index `d = 7`. -/
theorem C1_writes_cover_once_w :
    1 ≤ 40 ∧ 40 ≤ 1024 ∧ 7 < 40 ∧
      countOcc 7 (((kdfLoop (fun _ _ => 0) 40).writes).map Prod.fst) = 1 :=
  ⟨by decide, by decide, by decide,
    C1_writes_cover_once (fun _ _ => 0) 40 7 (by decide) (by decide) (by decide)⟩

/-- Claim C9: for every valid key length the outer generation loop of
`citadel_bcrypt_pbkdf` terminates after exactly `stride = ceil(keyLength/32)`
iterations, with no key bytes left unconsumed. -/
theorem C9_loop_iterations (blocks : Nat → Nat → Nat) (K : Nat) (hK : 1 ≤ K) :
    (kdfLoop blocks K).iters = stride K ∧ (kdfLoop blocks K).remaining = 0 := by
  rw [kdfLoop_run blocks K hK]
  exact ⟨rfl, rfl⟩

/-- Witness for C9 at `keyLength = 100`. -/
theorem C9_loop_iterations_w :
    (kdfLoop (fun _ _ => 1) 100).iters = stride 100 ∧
      (kdfLoop (fun _ _ => 1) 100).remaining = 0 :=
  C9_loop_iterations (fun _ _ => 1) 100 (by decide)

/-- Claim C2: `citadel_bcrypt_pbkdf` reports failure exactly when
`rounds < 1`, the password is empty, the salt is empty, `keylen = 0`,
`keylen > 1024 = 32*32`, `saltlen > 2^20`, or the allocation of the
salt-plus-counter buffer fails; and all checks precede any derivation work —
on a failing input the result does not depend on the injected digest backend
or cipher core at all. -/
theorem C2_failure_iff (H H2 : List Nat → List Nat)
    (blf blf2 : List Nat → List Nat → Nat → Nat)
    (rng : Nat → List Nat) (allocOk : Bool)
    (pass salt keyInit : List Nat) (rounds : Nat) :
    ((citadel_bcrypt_pbkdf H blf rng allocOk pass salt keyInit rounds).1 = -1 ↔
      (rounds < 1 ∨ pass.length = 0 ∨ salt.length = 0 ∨ keyInit.length = 0 ∨
        1024 < keyInit.length ∨ 2 ^ 20 < salt.length ∨ allocOk = false)) ∧
    ((rounds < 1 ∨ pass.length = 0 ∨ salt.length = 0 ∨ keyInit.length = 0 ∨
        1024 < keyInit.length ∨ 2 ^ 20 < salt.length ∨ allocOk = false) →
      citadel_bcrypt_pbkdf H blf rng allocOk pass salt keyInit rounds
        = citadel_bcrypt_pbkdf H2 blf2 rng allocOk pass salt keyInit rounds) := by
  have h1024 : BCRYPT_HASHSIZE * BCRYPT_HASHSIZE = 1024 := rfl
  constructor
  · unfold citadel_bcrypt_pbkdf
    split_ifs with hA hB hC
    · exact iff_of_true rfl (Or.inl hA)
    · rw [h1024] at hB
      exact iff_of_true rfl (by tauto)
    · exact iff_of_true rfl (by tauto)
    · rw [h1024] at hB
      refine iff_of_false (by decide) ?_
      tauto
  · intro hbad
    unfold citadel_bcrypt_pbkdf
    split_ifs with hA hB hC
    · rfl
    · rfl
    · rfl
    · exfalso
      rw [h1024] at hB
      tauto

/-- Witness for C2: empty password is rejected. -/
theorem C2_failure_iff_w :
    (citadel_bcrypt_pbkdf sampleH sampleBlf sampleRng true [] [2] [3] 5).1 = -1 :=
  (C2_failure_iff sampleH zeroH sampleBlf zeroBlf sampleRng true [] [2] [3] 5).1.mpr
    (by decide)

/-- Claim C3: on every validation or allocation failure, the whole
`keyLength`-byte output buffer is overwritten with the injected secure-random
bytes before the failure result is returned, regardless of the buffer's
previous contents. -/
theorem C3_failure_random_fill (H : List Nat → List Nat)
    (blf : List Nat → List Nat → Nat → Nat) (rng : Nat → List Nat)
    (allocOk : Bool) (pass salt keyInit : List Nat) (rounds : Nat)
    (hbad : rounds < 1 ∨ pass.length = 0 ∨ salt.length = 0 ∨ keyInit.length = 0 ∨
      1024 < keyInit.length ∨ 2 ^ 20 < salt.length ∨ allocOk = false) :
    (citadel_bcrypt_pbkdf H blf rng allocOk pass salt keyInit rounds).1 = -1 ∧
    (citadel_bcrypt_pbkdf H blf rng allocOk pass salt keyInit rounds).2
      = rng keyInit.length := by
  have h1024 : BCRYPT_HASHSIZE * BCRYPT_HASHSIZE = 1024 := rfl
  unfold citadel_bcrypt_pbkdf
  split_ifs with hA hB hC
  · exact ⟨rfl, rfl⟩
  · exact ⟨rfl, rfl⟩
  · exact ⟨rfl, rfl⟩
  · exfalso
    rw [h1024] at hB
    tauto

/-- Witness for C3: `rounds = 0` triggers the random fill. -/
theorem C3_failure_random_fill_w :
    (citadel_bcrypt_pbkdf sampleH sampleBlf sampleRng true [1] [2] [3] 0).1 = -1 ∧
    (citadel_bcrypt_pbkdf sampleH sampleBlf sampleRng true [1] [2] [3] 0).2
      = sampleRng 1 :=
  C3_failure_random_fill sampleH sampleBlf sampleRng true [1] [2] [3] 0 (by decide)

/-- Claim C4: for `keyLength = 64` (so `stride = 2`), `deriveKey` places byte
`i` of the first block's accumulated 32-byte output at output index `i*2` and
byte `i` of the second block's output at index `i*2 + 1`, for every `i < 16`. -/
theorem C4_interleaving_64 (H : List Nat → List Nat)
    (blf : List Nat → List Nat → Nat → Nat) (rng : Nat → List Nat)
    (pass salt keyInit : List Nat) (rounds i : Nat)
    (hv : validInput pass salt keyInit rounds) (hlen : keyInit.length = 64)
    (hi : i < 16) :
    ((citadel_bcrypt_pbkdf H blf rng true pass salt keyInit rounds).2).getD (i * 2) 0
      = (outBlock H blf (H pass) salt 1 rounds).getD i 0 ∧
    ((citadel_bcrypt_pbkdf H blf rng true pass salt keyInit rounds).2).getD (i * 2 + 1) 0
      = (outBlock H blf (H pass) salt 2 rounds).getD i 0 := by
  have hkey : (citadel_bcrypt_pbkdf H blf rng true pass salt keyInit rounds).2
      = derivedKey H blf pass salt keyInit rounds := by
    rw [pbkdf_valid_eq H blf rng pass salt keyInit rounds hv]
  rw [hkey]
  have hstride : stride keyInit.length = 2 := by
    rw [hlen]
    decide
  constructor
  · rw [derivedKey_getD H blf pass salt keyInit rounds (i * 2) (by omega) (by omega)]
    rw [hstride, show i * 2 % 2 + 1 = 1 from by omega, show i * 2 / 2 = i from by omega]
  · rw [derivedKey_getD H blf pass salt keyInit rounds (i * 2 + 1) (by omega) (by omega)]
    rw [hstride, show (i * 2 + 1) % 2 + 1 = 2 from by omega,
      show (i * 2 + 1) / 2 = i from by omega]

/-- Witness for C4 at a concrete 64-byte instance, `i = 3`. -/
theorem C4_interleaving_64_w :
    ((citadel_bcrypt_pbkdf sampleH sampleBlf sampleRng true [1] [2]
        (List.replicate 64 0) 1).2).getD (3 * 2) 0
      = (outBlock sampleH sampleBlf (sampleH [1]) [2] 1 1).getD 3 0 ∧
    ((citadel_bcrypt_pbkdf sampleH sampleBlf sampleRng true [1] [2]
        (List.replicate 64 0) 1).2).getD (3 * 2 + 1) 0
      = (outBlock sampleH sampleBlf (sampleH [1]) [2] 2 1).getD 3 0 :=
  C4_interleaving_64 sampleH sampleBlf sampleRng [1] [2] (List.replicate 64 0) 1 3
    (by decide) (by decide) (by decide)

/-- Claim C6: with the injected digest backend and cipher core fixed, any two
calls on the same valid `(password, salt, rounds, keyLength)` produce the same
output bytes: the result depends neither on the random source nor on the prior
contents of the caller's output buffer — there is no hidden state. -/
theorem C6_deterministic (H : List Nat → List Nat)
    (blf : List Nat → List Nat → Nat → Nat) (rng1 rng2 : Nat → List Nat)
    (pass salt keyInit1 keyInit2 : List Nat) (rounds : Nat)
    (hv1 : validInput pass salt keyInit1 rounds)
    (hlen : keyInit1.length = keyInit2.length) :
    (citadel_bcrypt_pbkdf H blf rng1 true pass salt keyInit1 rounds).2
      = (citadel_bcrypt_pbkdf H blf rng2 true pass salt keyInit2 rounds).2 := by
  have hv2 : validInput pass salt keyInit2 rounds := by
    obtain ⟨a, b, c, d, e, f⟩ := hv1
    exact ⟨a, b, c, by omega, by omega, f⟩
  have hK1 : 1 ≤ keyInit1.length := hv1.2.2.2.1
  rw [pbkdf_valid_eq H blf rng1 pass salt keyInit1 rounds hv1]
  rw [pbkdf_valid_eq H blf rng2 pass salt keyInit2 rounds hv2]
  show derivedKey H blf pass salt keyInit1 rounds
    = derivedKey H blf pass salt keyInit2 rounds
  have hL1 := derivedKey_length H blf pass salt keyInit1 rounds
  have hL2 := derivedKey_length H blf pass salt keyInit2 rounds
  apply List.ext_getElem (by omega)
  intro n h1 h2
  have hn : n < keyInit1.length := by omega
  rw [← List.getD_eq_getElem _ 0 h1, ← List.getD_eq_getElem _ 0 h2]
  rw [derivedKey_getD H blf pass salt keyInit1 rounds n hK1 hn]
  rw [derivedKey_getD H blf pass salt keyInit2 rounds n (by omega) (by omega)]
  rw [hlen]

/-- Witness for C6: two calls with different random sources and differently
pre-filled buffers agree on a concrete valid input. -/
theorem C6_deterministic_w :
    (citadel_bcrypt_pbkdf sampleH sampleBlf sampleRng true [1] [2] [0, 0, 0] 2).2
      = (citadel_bcrypt_pbkdf sampleH sampleBlf sampleRng2 true [1] [2] [5, 5, 5] 2).2 :=
  C6_deterministic sampleH sampleBlf sampleRng sampleRng2 [1] [2] [0, 0, 0] [5, 5, 5] 2
    (by decide) (by decide)

/-- Claim C8: `bcrypt_hash` serializes its 8 final 32-bit words to the 32
output bytes little-endian within each word: byte `4*i` is the
least-significant byte of word `i` and byte `4*i+3` its most-significant
byte. -/
theorem C8_serialization (blf : List Nat → List Nat → Nat → Nat)
    (sha2pass sha2salt : List Nat) (i : Nat) (hi : i < 8) :
    (bcrypt_hash blf sha2pass sha2salt).getD (4 * i) 0
      = blf sha2pass sha2salt i % 2 ^ 32 % 256 ∧
    (bcrypt_hash blf sha2pass sha2salt).getD (4 * i + 3) 0
      = blf sha2pass sha2salt i % 2 ^ 32 / 2 ^ 24 % 256 := by
  have h32 : BCRYPT_HASHSIZE = 32 := rfl
  have hlt1 : 4 * i < (List.range BCRYPT_HASHSIZE).length := by
    rw [List.length_range]
    omega
  have hlt2 : 4 * i + 3 < (List.range BCRYPT_HASHSIZE).length := by
    rw [List.length_range]
    omega
  unfold bcrypt_hash
  constructor
  · rw [List.getD_eq_getElem _ 0 (by rw [List.length_map]; exact hlt1)]
    rw [List.getElem_map, List.getElem_range]
    unfold bcryptOutByte
    rw [show 4 * i % 4 = 0 from by omega, show 4 * i / 4 = i from by omega]
  · rw [List.getD_eq_getElem _ 0 (by rw [List.length_map]; exact hlt2)]
    rw [List.getElem_map, List.getElem_range]
    unfold bcryptOutByte
    rw [show (4 * i + 3) % 4 = 3 from by omega, show (4 * i + 3) / 4 = i from by omega]

/-- Witness for C8 at word index `i = 2` on a concrete instantiation. -/
theorem C8_serialization_w :
    (bcrypt_hash sampleBlf [1] [2]).getD (4 * 2) 0
      = sampleBlf [1] [2] 2 % 2 ^ 32 % 256 ∧
    (bcrypt_hash sampleBlf [1] [2]).getD (4 * 2 + 3) 0
      = sampleBlf [1] [2] 2 % 2 ^ 32 / 2 ^ 24 % 256 :=
  C8_serialization sampleBlf [1] [2] 2 (by decide)

/-- Claim C5 counterexample: on a successful call the counter+salt working
buffer is released still holding the salt followed by the final counter bytes
— it is not overwritten with zeros (the `freezero` of src line 151 is
commented out; plain `free` is used). -/
theorem C5_cex :
    (pbkdfFinalBuffers sampleH sampleBlf true [3] [7] [9, 9, 9] 1
        ⟨none, [1], [1], [1], [1]⟩).countsalt = some [7, 0, 0, 0, 1] ∧
    [7, 0, 0, 0, 1] ≠ List.replicate 5 (0 : Nat) :=
  ⟨by decide, by decide⟩

/-- Claim C5 amended: on the success path the running output block `out` and
the per-round scratch block `tmpout` are zeroed before return, but the
counter+salt buffer is released unzeroed (still `salt ‖ be32 stride`), the
password digest `sha2pass` still holds `H pass`, and the salt digest
`sha2salt` still holds the final round's salt digest; on every failure path
nothing is zeroed — the stack buffers are returned exactly as they were on
entry, and the counter+salt buffer is never allocated. -/
theorem C5_amended_wipe (H : List Nat → List Nat)
    (blf : List Nat → List Nat → Nat → Nat) (allocOk : Bool)
    (pass salt keyInit : List Nat) (rounds : Nat) (g : FinalBuffers) :
    (validInput pass salt keyInit rounds → allocOk = true →
      pbkdfFinalBuffers H blf allocOk pass salt keyInit rounds g =
        { countsalt := some (salt ++ be32 (stride keyInit.length))
          outBuf := List.replicate 32 0
          tmpout := List.replicate 32 0
          sha2pass := H pass
          sha2salt :=
            if rounds ≤ 1 then H (salt ++ be32 (stride keyInit.length))
            else H (tmpoutAt H blf (H pass) salt (stride keyInit.length)
              (rounds - 2)) }) ∧
    ((rounds < 1 ∨ pass.length = 0 ∨ salt.length = 0 ∨ keyInit.length = 0 ∨
        1024 < keyInit.length ∨ 2 ^ 20 < salt.length ∨ allocOk = false) →
      pbkdfFinalBuffers H blf allocOk pass salt keyInit rounds g =
        { g with countsalt := none }) := by
  have h1024 : BCRYPT_HASHSIZE * BCRYPT_HASHSIZE = 1024 := rfl
  constructor
  · intro hv hao
    obtain ⟨h1, h2, h3, h4, h5, h6⟩ := hv
    subst hao
    unfold pbkdfFinalBuffers
    rw [if_neg (by omega), if_neg (by rw [h1024]; omega), if_neg (by simp)]
    rw [kdfLoop_run (kdfBlocks H blf pass salt rounds) keyInit.length (by omega)]
    rfl
  · intro hbad
    unfold pbkdfFinalBuffers
    by_cases hA : rounds < 1
    · rw [if_pos hA]
    · rw [if_neg hA]
      by_cases hB : pass.length = 0 ∨ salt.length = 0 ∨ keyInit.length = 0 ∨
          BCRYPT_HASHSIZE * BCRYPT_HASHSIZE < keyInit.length ∨ 2 ^ 20 < salt.length
      · rw [if_pos hB]
      · rw [if_neg hB]
        by_cases hC : allocOk = false
        · rw [if_pos hC]
        · exfalso
          rw [h1024] at hB
          tauto

/-- Witness for the amended C5: the success part at a concrete valid input,
and the failure part at `rounds = 0`, both from the same entry garbage. -/
theorem C5_amended_wipe_w :
    (pbkdfFinalBuffers sampleH sampleBlf true [3] [7] [9, 9, 9] 1
        ⟨none, [1], [1], [1], [1]⟩ =
      { countsalt := some ([7] ++ be32 (stride ([9, 9, 9] : List Nat).length))
        outBuf := List.replicate 32 0
        tmpout := List.replicate 32 0
        sha2pass := sampleH [3]
        sha2salt :=
          if (1 : Nat) ≤ 1 then
            sampleH ([7] ++ be32 (stride ([9, 9, 9] : List Nat).length))
          else
            sampleH (tmpoutAt sampleH sampleBlf (sampleH [3]) [7]
              (stride ([9, 9, 9] : List Nat).length) (1 - 2)) }) ∧
    (pbkdfFinalBuffers sampleH sampleBlf true [3] [7] [9, 9, 9] 0
        ⟨none, [1], [1], [1], [1]⟩ =
      { (⟨none, [1], [1], [1], [1]⟩ : FinalBuffers) with countsalt := none }) :=
  ⟨(C5_amended_wipe sampleH sampleBlf true [3] [7] [9, 9, 9] 1
      ⟨none, [1], [1], [1], [1]⟩).1 (by decide) rfl,
    (C5_amended_wipe sampleH sampleBlf true [3] [7] [9, 9, 9] 0
      ⟨none, [1], [1], [1], [1]⟩).2 (by decide)⟩

/-- Claim C7 counterexample: under a degenerate instantiation of the abstract
cipher core (all-zero words, which the sources do not exclude since `blf.c` is
external to them), the same valid input yields identical keys for `rounds = 1`
and `rounds = 2`, so distinct round counts do not always change the output. -/
theorem C7_cex :
    citadel_bcrypt_pbkdf zeroH zeroBlf sampleRng true [3] [7] [9, 9, 9] 1
      = citadel_bcrypt_pbkdf zeroH zeroBlf sampleRng true [3] [7] [9, 9, 9] 2 ∧
    (1 : Nat) ≠ 2 := by
  exact ⟨by decide, by decide⟩

/-- Claim C7 amended: holding password, salt and keyLength fixed, the derived
keys for round counts `r1` and `r2` differ whenever the XOR-accumulated
blocks differ at a byte position the interleaving actually places into the
key: some index `d < keyLength`, whose byte comes from block `d % stride + 1`
at byte offset `d / stride`.  Differences confined to unplaced block bytes,
or degenerate backend instantiations, need not change the key. -/
theorem C7_round_sensitivity (H : List Nat → List Nat)
    (blf : List Nat → List Nat → Nat → Nat) (rng : Nat → List Nat)
    (pass salt keyInit : List Nat) (r1 r2 d : Nat)
    (hv : validInput pass salt keyInit r1) (hr2 : 1 ≤ r2)
    (hd : d < keyInit.length)
    (hne : (outBlock H blf (H pass) salt (d % stride keyInit.length + 1) r1).getD
        (d / stride keyInit.length) 0
      ≠ (outBlock H blf (H pass) salt (d % stride keyInit.length + 1) r2).getD
        (d / stride keyInit.length) 0) :
    (citadel_bcrypt_pbkdf H blf rng true pass salt keyInit r1).2
      ≠ (citadel_bcrypt_pbkdf H blf rng true pass salt keyInit r2).2 := by
  have hv2 : validInput pass salt keyInit r2 := by
    obtain ⟨a, b, c, d2, e, f⟩ := hv
    exact ⟨hr2, b, c, d2, e, f⟩
  have hK1 : 1 ≤ keyInit.length := hv.2.2.2.1
  rw [pbkdf_valid_eq H blf rng pass salt keyInit r1 hv]
  rw [pbkdf_valid_eq H blf rng pass salt keyInit r2 hv2]
  show derivedKey H blf pass salt keyInit r1 ≠ derivedKey H blf pass salt keyInit r2
  intro heq
  apply hne
  have h1 := derivedKey_getD H blf pass salt keyInit r1 d hK1 hd
  have h2 := derivedKey_getD H blf pass salt keyInit r2 d hK1 hd
  rw [← h1, ← h2, heq]

/-- Witness for the amended C7 at a multi-block key length (33 bytes,
stride 2): the accumulated blocks for counter 2 differ at the placed byte 0
(key index 1) between `rounds = 1` and `rounds = 2`, so the keys differ. -/
theorem C7_round_sensitivity_w :
    (citadel_bcrypt_pbkdf sampleH sampleBlf sampleRng true [3] [7]
        (List.replicate 33 0) 1).2
      ≠ (citadel_bcrypt_pbkdf sampleH sampleBlf sampleRng true [3] [7]
        (List.replicate 33 0) 2).2 :=
  C7_round_sensitivity sampleH sampleBlf sampleRng [3] [7] (List.replicate 33 0) 1 2 1
    (by decide) (by decide) (by decide) (by decide)

/-- Claim C10: for `1 ≤ keyLength ≤ 32` the stride is 1, the outer loop runs
exactly once, and the derived key is the contiguous prefix of the single
XOR-accumulated 32-byte block. -/
theorem C10_single_block (H : List Nat → List Nat)
    (blf : List Nat → List Nat → Nat → Nat) (rng : Nat → List Nat)
    (pass salt keyInit : List Nat) (rounds : Nat)
    (hv : validInput pass salt keyInit rounds) (hK : keyInit.length ≤ 32) :
    stride keyInit.length = 1 ∧
    (kdfLoop (kdfBlocks H blf pass salt rounds) keyInit.length).iters = 1 ∧
    (citadel_bcrypt_pbkdf H blf rng true pass salt keyInit rounds).2
      = (outBlock H blf (H pass) salt 1 rounds).take keyInit.length := by
  have hK1 : 1 ≤ keyInit.length := hv.2.2.2.1
  have h32 : BCRYPT_HASHSIZE = 32 := rfl
  have hstride : stride keyInit.length = 1 := by
    unfold stride
    rw [h32]
    omega
  refine ⟨hstride, ?_, ?_⟩
  · rw [kdfLoop_run _ _ hK1]
    simpa using hstride
  · rw [pbkdf_valid_eq H blf rng pass salt keyInit rounds hv]
    show derivedKey H blf pass salt keyInit rounds
      = (outBlock H blf (H pass) salt 1 rounds).take keyInit.length
    have hoblen : (outBlock H blf (H pass) salt 1 rounds).length = 32 :=
      outBlock_length H blf (H pass) salt 1 rounds hv.1
    apply List.ext_getElem
    · rw [derivedKey_length, List.length_take, hoblen]
      omega
    · intro n h1 h2
      have hn : n < keyInit.length := by
        rwa [derivedKey_length] at h1
      rw [← List.getD_eq_getElem _ 0 h1]
      rw [derivedKey_getD H blf pass salt keyInit rounds n hK1 hn, hstride,
        show n % 1 + 1 = 1 from by omega, show n / 1 = n from by omega]
      rw [List.getElem_take]
      exact List.getD_eq_getElem _ 0 (by omega)

/-- Witness for C10 on a concrete 3-byte key. -/
theorem C10_single_block_w :
    stride ([9, 9, 9] : List Nat).length = 1 ∧
    (kdfLoop (kdfBlocks sampleH sampleBlf [3] [7] 2) ([9, 9, 9] : List Nat).length).iters
      = 1 ∧
    (citadel_bcrypt_pbkdf sampleH sampleBlf sampleRng true [3] [7] [9, 9, 9] 2).2
      = (outBlock sampleH sampleBlf (sampleH [3]) [7] 1 2).take
          ([9, 9, 9] : List Nat).length :=
  C10_single_block sampleH sampleBlf sampleRng [3] [7] [9, 9, 9] 2 (by decide) (by decide)

end Citadel
